import Mathlib

/-!
Verification development for the Iavra localization plugins: the core
text-substitution engine (document flattening, escape-token matching,
fixpoint token resolution, language registry) and the options-menu
language cycling helpers.
-/

/-- A localization source document: nested string-keyed objects and
arrays whose leaves are scalar values, as parsed from a language file. -/
inductive Doc (α : Type) where
  | leaf : α → Doc α
  | obj : List (String × Doc α) → Doc α
  | arr : List (Doc α) → Doc α

mutual

/-- Embeds the core plugin function `_flatten`: joins nested object keys
and array indices with "." and returns a single-level key/value list. -/
def _flatten {α : Type} : Doc α → List (String × α)
  | Doc.leaf _ => []
  | Doc.obj l => flattenObj l
  | Doc.arr l => flattenArr 0 l

/-- The `for(var key in object)` loop of `_flatten` over an object node,
visiting the entries in iteration order. -/
def flattenObj {α : Type} : List (String × Doc α) → List (String × α)
  | [] => []
  | (k, d) :: rest => flattenOne k d ++ flattenObj rest

/-- The `for(var key in object)` loop of `_flatten` over an array node:
the visited keys are the decimal indices "0", "1", ... . -/
def flattenArr {α : Type} : Nat → List (Doc α) → List (String × α)
  | _, [] => []
  | i, d :: rest => flattenOne (toString i) d ++ flattenArr (i + 1) rest

/-- The body of the loop of `_flatten`: a scalar value is emitted under
the current key; a nested node (reported as object by typeof) is flattened
recursively and its keys are joined to the current key with ".". The
table is built as an object literal that inherits the base object
prototype, so the scalar assignment to the key "__proto__" hits the
inherited prototype accessor setter and is a silent no-op (joined keys
always contain a dot and can never be "__proto__"). -/
def flattenOne {α : Type} (k : String) : Doc α → List (String × α)
  | Doc.leaf v => if k = "__proto__" then [] else [(k, v)]
  | Doc.obj l => (flattenObj l).map (fun xv => (k ++ "." ++ xv.1, xv.2))
  | Doc.arr l => (flattenArr 0 l).map (fun xv => (k ++ "." ++ xv.1, xv.2))

end

/-- Joins a path with "." separators, as in the notation `p1.p2...pn` of the spec. -/
def joinDots : List String → String
  | [] => ""
  | [x] => x
  | x :: y :: rest => x ++ "." ++ joinDots (y :: rest)

/-- A leaf value `v` is reachable in a document at path `p`: object keys
and array indices (in decimal string form) both contribute a segment. -/
inductive Reaches {α : Type} : Doc α → List String → α → Prop where
  | leaf : ∀ v, Reaches (Doc.leaf v) [] v
  | obj : ∀ {l : List (String × Doc α)} {k : String} {d : Doc α} {p : List String} {v : α},
      (k, d) ∈ l → Reaches d p v → Reaches (Doc.obj l) (k :: p) v
  | arr : ∀ {l : List (Doc α)} {i : Nat} {d : Doc α} {p : List String} {v : α},
      l[i]? = some d → Reaches d p v → Reaches (Doc.arr l) (toString i :: p) v

/-- Word characters and the literal dot: the character class of the
captured key in `_regex`, which is compiled as prefix`([\w\.]+?)`suffix. -/
def isWordDot (c : Char) : Bool :=
  c.isAlphanum || c = '_' || c = '.'

/-- The compiled escape pattern, split around the `(key)` placeholder of
the configured "Escape Code" template: the resulting matcher of `_regex`
is literal `pre`, then a minimal nonempty run of word/dot characters,
then literal `suf`. -/
structure EscapeCfg where
  pre : List Char
  suf : List Char
deriving DecidableEq

/-- Splits the escape-code template around its "(key)" placeholder, as
the construction of `_regex` does with its two `replace` calls. -/
def splitTemplate : List Char → Option (List Char × List Char)
  | [] => none
  | c :: cs =>
    if ("\x7bkey\x7d".toList).isPrefixOf (c :: cs) then
      some ([], (c :: cs).drop 5)
    else
      match splitTemplate cs with
      | some (p, s) => some (c :: p, s)
      | none => none

/-- The matcher compiled from the default "Escape Code" template
`#((key))`: literal prefix "#(", captured key, literal suffix ")"
(with braces for the parentheses here). -/
def cfg0 : EscapeCfg := ⟨"#\x7b".toList, "\x7d".toList⟩

/-- Non-greedy capture of `([\w\.]+?)` followed by the literal suffix:
takes the shortest nonempty run of word/dot characters after which the
suffix matches, and returns the captured key and the rest of the text
after the suffix. -/
def matchKey (suf : List Char) : List Char → Option (List Char × List Char)
  | [] => none
  | c :: cs =>
    if isWordDot c then
      if suf.isPrefixOf cs then some ([c], cs.drop suf.length)
      else
        match matchKey suf cs with
        | some (k, rest) => some (c :: k, rest)
        | none => none
    else none

/-- Attempts to match the compiled pattern at the start of `s`: the
literal prefix, then the captured key and suffix. -/
def matchAt (cfg : EscapeCfg) (s : List Char) : Option (List Char × List Char) :=
  if cfg.pre.isPrefixOf s then matchKey cfg.suf (s.drop cfg.pre.length) else none

/-- A flat language table, as produced by `_flatten` on string leaves. -/
abbrev Table := List (String × String)

/-- Property lookup on a flat table object: the most recent assignment
to a key wins, absent keys give nothing (JavaScript `undefined`). -/
def lookupTable : Table → String → Option String
  | [], _ => none
  | (k0, v) :: rest, k =>
    match lookupTable rest k with
    | some v' => some v'
    | none => if k0 = k then some v else none

/-- The table reference `_data[_lang]` used by `_replace`: a registered
language that has not been loaded yet still holds the `null` placeholder
put there when `_data` was built; a loaded language holds its table. -/
inductive TableRef where
  | nullRef : TableRef
  | table : Table → TableRef
deriving DecidableEq

/-- Thrown by a property access on `null`. -/
inductive JsError where
  | typeError : JsError
deriving DecidableEq

/-- The own member names of the base object prototype. The table built
by the flatten routine is an object literal (not a null-prototype
object like the data map), so a property read on it falls back to
these inherited members when the key is not an own key. -/
def objectProtoKeys : List String :=
  ["constructor", "hasOwnProperty", "isPrototypeOf", "propertyIsEnumerable",
   "toLocaleString", "toString", "valueOf", "__defineGetter__", "__defineSetter__",
   "__lookupGetter__", "__lookupSetter__", "__proto__"]

/-- The string coercion of an inherited prototype member, as produced
by the V8 engine the host runs on: the constructor stringifies to the
native Object function, the prototype link to the base object text,
and every other member to its native function text. -/
def objectProtoString (k : String) : String :=
  if k = "constructor" then "function Object() \x7b [native code] \x7d"
  else if k = "__proto__" then "[object Object]"
  else "function " ++ k ++ "() \x7b [native code] \x7d"

/-- The lookup `d[k]` performed by the replacement callback, combined
with the string coercion done by `String.replace` on its result: an own
key of a loaded table yields its value; a key that names an inherited
member of the base object prototype yields that member stringified; any
other key yields `undefined`, which is coerced to the text "undefined";
an access on the `null` placeholder throws. -/
def tableGet : TableRef → String → Except JsError String
  | TableRef.nullRef, _ => Except.error JsError.typeError
  | TableRef.table t, k =>
    Except.ok (match lookupTable t k with
      | some v => v
      | none => if objectProtoKeys.contains k then objectProtoString k else "undefined")

/-- One global replacement pass `r.replace(_regex, function(m, k) ...)`,
scanning left to right: at each position the pattern is tried; a match
is replaced by the looked-up value and scanning resumes after the match;
the flag records whether the callback ran at least once. The fuel is a
strict bound on the scan and is instantiated with the text length. -/
def passAux (cfg : EscapeCfg) (d : TableRef) : Nat → List Char → Except JsError (List Char × Bool)
  | 0, _ => Except.ok ([], false)
  | _ + 1, [] => Except.ok ([], false)
  | fuel + 1, c :: cs =>
    match matchAt cfg (c :: cs) with
    | some (k, rest) =>
      match tableGet d (String.mk k) with
      | Except.error e => Except.error e
      | Except.ok v =>
        match passAux cfg d fuel rest with
        | Except.error e => Except.error e
        | Except.ok (r, _) => Except.ok (v.toList ++ r, true)
    | none =>
      match passAux cfg d fuel cs with
      | Except.error e => Except.error e
      | Except.ok (r, f) => Except.ok (c :: r, f)

/-- One full replacement pass over a text. -/
def replacePass (cfg : EscapeCfg) (d : TableRef) (s : List Char) : Except JsError (List Char × Bool) :=
  passAux cfg d s.length s

/-- Whether the compiled pattern finds any match in the text (the loop
flag of `_replace` after one pass). -/
def scanMatch (cfg : EscapeCfg) : List Char → Bool
  | [] => false
  | c :: cs => (matchAt cfg (c :: cs)).isSome || scanMatch cfg cs

/-- The `while(f)` loop of `_replace`: repeats passes until one pass
produced no match, returning the output of that final pass. The fuel counts loop
iterations; running out of fuel models a loop still running. -/
def resolveLoop (cfg : EscapeCfg) (d : TableRef) : Nat → List Char → Option (Except JsError (List Char))
  | 0, _ => none
  | n + 1, s =>
    match replacePass cfg d s with
    | Except.error e => some (Except.error e)
    | Except.ok (r, f) => if f then resolveLoop cfg d n r else some (Except.ok r)

/-- The argument of `_replace`: absent values (null and undefined) are
distinguished from actual strings. -/
inductive JsText where
  | nullv : JsText
  | undef : JsText
  | str : String → JsText
deriving DecidableEq

/-- Embeds `_replace`: absent input is returned unchanged, a string is
run through the substitution loop against the table reference of the active
language. -/
def _replace (cfg : EscapeCfg) (d : TableRef) (fuel : Nat) : JsText → Option (Except JsError JsText)
  | JsText.nullv => some (Except.ok JsText.nullv)
  | JsText.undef => some (Except.ok JsText.undef)
  | JsText.str s => (resolveLoop cfg d fuel s.toList).map (fun e => e.map (fun l => JsText.str (String.mk l)))

/-- The keys captured by scanning a text with the compiled pattern, in
match order: the references a table value makes to other keys. -/
def tokenKeysAux (cfg : EscapeCfg) : Nat → List Char → List (List Char)
  | 0, _ => []
  | _ + 1, [] => []
  | fuel + 1, c :: cs =>
    match matchAt cfg (c :: cs) with
    | some (k, rest) => k :: tokenKeysAux cfg fuel rest
    | none => tokenKeysAux cfg fuel cs

/-- All keys referenced by the tokens occurring in a text. -/
def tokenKeys (cfg : EscapeCfg) (s : List Char) : List (List Char) :=
  tokenKeysAux cfg s.length s

/-- Key `k` of the table references key `k2`: some value stored under
`k` contains a token whose captured key is `k2`. -/
def refersTo (cfg : EscapeCfg) (t : Table) (k k2 : String) : Prop :=
  ∃ v, (k, v) ∈ t ∧ k2 ∈ (tokenKeys cfg v.toList).map (fun l => String.mk l)

/-- The key-reference graph of a table is acyclic: the keys can be
ranked so that every reference goes strictly down in rank. -/
def AcyclicRefs (cfg : EscapeCfg) (t : Table) : Prop :=
  ∃ rank : String → Nat, ∀ k k2, refersTo cfg t k k2 → rank k2 < rank k

/-- The mutable state behind `IAVRA.I18N.language`: the configured
language list (first entry is the default) and the current language
`_lang`, which is `undefined` (modelled as `none`) only when no language
was configured. -/
structure I18NState where
  languages : List String
  lang : Option String

/-- Embeds the setter of `IAVRA.I18N.language`:
`_lang = _param_languages.contains(value) ? value : _param_languages[0]`. -/
def setLanguage (st : I18NState) (value : String) : I18NState :=
  { st with lang := if st.languages.contains value then some value else st.languages.head? }

/-- The initial `_data` object built from the language list: every
registered language starts with a `null` placeholder, replaced by its
flattened table only once the asynchronous file load completes. -/
def dataInit (langs : List String) : List (String × TableRef) :=
  langs.map (fun l => (l, TableRef.nullRef))

/-- First-occurrence index of a value in a list, if present. -/
def idxOfAux (v : String) : List String → Option Nat
  | [] => none
  | x :: xs => if x = v then some 0 else (idxOfAux v xs).map (fun n => n + 1)

/-- JavaScript `Array.prototype.indexOf`: index of the first occurrence,
or -1 when the value does not occur. -/
def jsIndexOf (l : List String) (v : String) : Int :=
  match idxOfAux v l with
  | some n => (n : Int)
  | none => -1

/-- JavaScript indexed element access `l[i]`: `undefined` (none) outside
the valid range. -/
def jsGetElem (l : List String) (i : Int) : Option String :=
  if 0 ≤ i then l[i.toNat]? else none

/-- Embeds `_prevLanguage` of the menu plugin:
`index = languages.indexOf(language) + 1` and then
`languages[index >= languages.length ? 0 : index]`. -/
def _prevLanguage (languages : List String) (language : String) : Option String :=
  let index : Int := jsIndexOf languages language + 1
  jsGetElem languages (if (languages.length : Int) ≤ index then 0 else index)

/-- Embeds `_nextLanguage` of the menu plugin:
`index = languages.indexOf(language) - 1` and then
`languages[index < 0 ? languages.length - 1 : index]`. -/
def _nextLanguage (languages : List String) (language : String) : Option String :=
  let index : Int := jsIndexOf languages language - 1
  jsGetElem languages (if index < 0 then (languages.length : Int) - 1 else index)

/-- The document of the end-to-end example of the spec. -/
def exDoc : Doc String :=
  Doc.obj [("text", Doc.obj [("test", Doc.leaf "This is a test")]),
           ("hero", Doc.leaf "Harold"),
           ("greet", Doc.leaf "Hi, I\x27m #{hero}")]

/-- A loaded table whose key-reference graph is acyclic (the only token
in a value is the reference of "c" to "b"), yet on which the
substitution loop never terminates: each pass on "#(c)" rebuilds the
token "#(c)" out of the "#" supplied by the value of "b". -/
def regenTable : Table := [("b", "z#"), ("c", "#{b}{c}")]

theorem isPrefixOf_append_self : ∀ (l t : List Char), l.isPrefixOf (l ++ t) = true
  | [], _ => by simp [List.isPrefixOf]
  | c :: cs, t => by simp [List.isPrefixOf, isPrefixOf_append_self cs t]

theorem matchKey_length {suf : List Char} :
    ∀ (cs : List Char) {k rest : List Char}, matchKey suf cs = some (k, rest) → rest.length < cs.length := by
  intro cs
  induction cs with
  | nil => intro k rest h; simp [matchKey] at h
  | cons c cs ih =>
    intro k rest h
    simp only [matchKey] at h
    by_cases hw : isWordDot c = true
    · rw [if_pos hw] at h
      by_cases hp : suf.isPrefixOf cs = true
      · rw [if_pos hp] at h
        simp only [Option.some.injEq, Prod.mk.injEq] at h
        obtain ⟨-, hr⟩ := h
        subst hr
        simp only [List.length_drop, List.length_cons]
        omega
      · rw [if_neg hp] at h
        cases hm : matchKey suf cs with
        | none => rw [hm] at h; cases h
        | some kr =>
          obtain ⟨k2, rest2⟩ := kr
          rw [hm] at h
          simp only [Option.some.injEq, Prod.mk.injEq] at h
          obtain ⟨-, hr⟩ := h
          subst hr
          exact Nat.lt_succ_of_lt (ih hm)
    · rw [if_neg hw] at h; cases h

theorem matchAt_length {cfg : EscapeCfg} {s k rest : List Char} (h : matchAt cfg s = some (k, rest)) :
    rest.length < s.length := by
  unfold matchAt at h
  by_cases hp : cfg.pre.isPrefixOf s = true
  · rw [if_pos hp] at h
    have h1 := matchKey_length _ h
    have h2 : (s.drop cfg.pre.length).length ≤ s.length := by
      simp only [List.length_drop]
      omega
    omega
  · rw [if_neg hp] at h; cases h

theorem matchAt_nil {cfg : EscapeCfg} : matchAt cfg [] = none := by
  unfold matchAt
  rcases hp : cfg.pre with - | ⟨p, pr⟩ <;> simp [hp, List.isPrefixOf, matchKey]

theorem matchAt_head_ne {cfg : EscapeCfg} {p : Char} {pr : List Char} (hpre : cfg.pre = p :: pr)
    {c : Char} {cs : List Char} (hc : (p == c) = false) :
    matchAt cfg (c :: cs) = none := by
  unfold matchAt
  rw [hpre]
  simp [List.isPrefixOf, hc]

theorem matchKey_cons (suf : List Char) (c : Char) (cs : List Char) :
    matchKey suf (c :: cs) =
      if isWordDot c then
        if suf.isPrefixOf cs then some ([c], cs.drop suf.length)
        else
          match matchKey suf cs with
          | some (k, rest) => some (c :: k, rest)
          | none => none
      else none := rfl

theorem matchKey_capture {s0 : Char} {sufTail : List Char} (hs0 : isWordDot s0 = false) :
    ∀ (a z : List Char), a ≠ [] → (∀ c ∈ a, isWordDot c = true) →
      matchKey (s0 :: sufTail) (a ++ (s0 :: sufTail) ++ z) = some (a, z) := by
  intro a
  induction a with
  | nil => intro z h hw; exact absurd rfl h
  | cons x xs ih =>
    intro z hne hw
    have hx : isWordDot x = true := hw x (List.mem_cons_self x xs)
    cases xs with
    | nil =>
      have e : ([x] ++ (s0 :: sufTail) ++ z) = x :: ((s0 :: sufTail) ++ z) := by simp
      rw [e, matchKey_cons]
      rw [if_pos hx, if_pos (isPrefixOf_append_self (s0 :: sufTail) z), List.drop_left]
    | cons y ys =>
      have hy : isWordDot y = true := hw y (by simp)
      have hsy : (s0 == y) = false := by
        cases hb : s0 == y
        · rfl
        · rw [eq_of_beq hb, hy] at hs0; cases hs0
      have e : ((x :: y :: ys) ++ (s0 :: sufTail) ++ z) = x :: ((y :: ys) ++ (s0 :: sufTail) ++ z) := by
        simp
      rw [e, matchKey_cons]
      rw [if_pos hx]
      have hpref : ((s0 :: sufTail).isPrefixOf ((y :: ys) ++ (s0 :: sufTail) ++ z)) = false := by
        have e2 : ((y :: ys) ++ (s0 :: sufTail) ++ z) = y :: (ys ++ (s0 :: sufTail) ++ z) := by simp
        rw [e2]
        simp [List.isPrefixOf, hsy]
      have hpref2 : ¬ ((s0 :: sufTail).isPrefixOf ((y :: ys) ++ (s0 :: sufTail) ++ z) = true) := by
        rw [hpref]
        simp
      rw [if_neg hpref2]
      rw [ih z (by simp) (fun c hc => hw c (List.mem_cons_of_mem _ hc))]

theorem matchAt_token (cfg : EscapeCfg) {s0 : Char} {sufTail : List Char}
    (hsuf : cfg.suf = s0 :: sufTail) (hs0 : isWordDot s0 = false)
    {a : List Char} (ha : a ≠ []) (hw : ∀ c ∈ a, isWordDot c = true) (z : List Char) :
    matchAt cfg (cfg.pre ++ a ++ cfg.suf ++ z) = some (a, z) := by
  unfold matchAt
  rw [show cfg.pre ++ a ++ cfg.suf ++ z = cfg.pre ++ (a ++ cfg.suf ++ z) by simp]
  rw [if_pos (isPrefixOf_append_self _ _), List.drop_left, hsuf]
  exact matchKey_capture hs0 a z ha hw

theorem passAux_eq_of_le (cfg : EscapeCfg) (d : TableRef) :
    ∀ (f1 f2 : Nat) (s : List Char), s.length ≤ f1 → s.length ≤ f2 →
      passAux cfg d f1 s = passAux cfg d f2 s := by
  intro f1
  induction f1 with
  | zero =>
    intro f2 s h1 h2
    have hs : s = [] := List.eq_nil_of_length_eq_zero (Nat.le_zero.mp h1)
    subst hs
    cases f2 <;> rfl
  | succ g ih =>
    intro f2 s h1 h2
    cases s with
    | nil => cases f2 <;> rfl
    | cons c cs =>
      cases f2 with
      | zero => simp at h2
      | succ g2 =>
        show (match matchAt cfg (c :: cs) with
          | some (k, rest) =>
            match tableGet d (String.mk k) with
            | Except.error e => Except.error e
            | Except.ok v =>
              match passAux cfg d g rest with
              | Except.error e => Except.error e
              | Except.ok (r, _) => Except.ok (v.toList ++ r, true)
          | none =>
            match passAux cfg d g cs with
            | Except.error e => Except.error e
            | Except.ok (r, f) => Except.ok (c :: r, f)) =
          (match matchAt cfg (c :: cs) with
          | some (k, rest) =>
            match tableGet d (String.mk k) with
            | Except.error e => Except.error e
            | Except.ok v =>
              match passAux cfg d g2 rest with
              | Except.error e => Except.error e
              | Except.ok (r, _) => Except.ok (v.toList ++ r, true)
          | none =>
            match passAux cfg d g2 cs with
            | Except.error e => Except.error e
            | Except.ok (r, f) => Except.ok (c :: r, f))
        cases hm : matchAt cfg (c :: cs) with
        | some kr =>
          obtain ⟨k, rest⟩ := kr
          have hr := matchAt_length hm
          simp only [List.length_cons] at h1 h2 hr
          dsimp only
          rw [ih g2 rest (by omega) (by omega)]
        | none =>
          simp only [List.length_cons] at h1 h2
          dsimp only
          rw [ih g2 cs (by omega) (by omega)]

theorem replacePass_nil (cfg : EscapeCfg) (d : TableRef) : replacePass cfg d [] = Except.ok ([], false) := rfl

theorem replacePass_cons_none {cfg : EscapeCfg} (d : TableRef) {c : Char} {cs : List Char}
    (hm : matchAt cfg (c :: cs) = none) :
    replacePass cfg d (c :: cs) =
      match replacePass cfg d cs with
      | Except.error e => Except.error e
      | Except.ok (r, f) => Except.ok (c :: r, f) := by
  show passAux cfg d (cs.length + 1) (c :: cs) = _
  show (match matchAt cfg (c :: cs) with
    | some (k, rest) =>
      match tableGet d (String.mk k) with
      | Except.error e => Except.error e
      | Except.ok v =>
        match passAux cfg d cs.length rest with
        | Except.error e => Except.error e
        | Except.ok (r, _) => Except.ok (v.toList ++ r, true)
    | none =>
      match passAux cfg d cs.length cs with
      | Except.error e => Except.error e
      | Except.ok (r, f) => Except.ok (c :: r, f)) = _
  rw [hm]
  rfl

theorem replacePass_cons_some {cfg : EscapeCfg} (d : TableRef) {c : Char} {cs k rest : List Char}
    (hm : matchAt cfg (c :: cs) = some (k, rest)) :
    replacePass cfg d (c :: cs) =
      match tableGet d (String.mk k) with
      | Except.error e => Except.error e
      | Except.ok v =>
        match replacePass cfg d rest with
        | Except.error e => Except.error e
        | Except.ok (r, _) => Except.ok (v.toList ++ r, true) := by
  show (match matchAt cfg (c :: cs) with
    | some (k, rest) =>
      match tableGet d (String.mk k) with
      | Except.error e => Except.error e
      | Except.ok v =>
        match passAux cfg d cs.length rest with
        | Except.error e => Except.error e
        | Except.ok (r, _) => Except.ok (v.toList ++ r, true)
    | none =>
      match passAux cfg d cs.length cs with
      | Except.error e => Except.error e
      | Except.ok (r, f) => Except.ok (c :: r, f)) = _
  rw [hm]
  dsimp only
  have hlen := matchAt_length hm
  simp only [List.length_cons] at hlen
  rw [passAux_eq_of_le cfg d cs.length rest.length rest (by omega) (by omega)]
  rfl

theorem replacePass_match {cfg : EscapeCfg} (d : TableRef) {s k rest : List Char}
    (hm : matchAt cfg s = some (k, rest)) :
    replacePass cfg d s =
      match tableGet d (String.mk k) with
      | Except.error e => Except.error e
      | Except.ok v =>
        match replacePass cfg d rest with
        | Except.error e => Except.error e
        | Except.ok (r, _) => Except.ok (v.toList ++ r, true) := by
  cases s with
  | nil => rw [matchAt_nil] at hm; cases hm
  | cons c cs => exact replacePass_cons_some d hm

theorem pass_of_no_match {cfg : EscapeCfg} (d : TableRef) :
    ∀ (s : List Char), scanMatch cfg s = false → replacePass cfg d s = Except.ok (s, false) := by
  intro s
  induction s with
  | nil => intro h; rfl
  | cons c cs ih =>
    intro h
    simp only [scanMatch, Bool.or_eq_false_iff] at h
    obtain ⟨h1, h2⟩ := h
    have hm : matchAt cfg (c :: cs) = none := by
      cases hmm : matchAt cfg (c :: cs)
      · rfl
      · rw [hmm] at h1; cases h1
    rw [replacePass_cons_none d hm, ih h2]

theorem pass_flag_false {cfg : EscapeCfg} {d : TableRef} :
    ∀ {s r : List Char}, replacePass cfg d s = Except.ok (r, false) → r = s := by
  intro s
  induction s with
  | nil =>
    intro r h
    rw [replacePass_nil] at h
    simp only [Except.ok.injEq, Prod.mk.injEq] at h
    exact h.1.symm
  | cons c cs ih =>
    intro r h
    cases hm : matchAt cfg (c :: cs) with
    | some kr =>
      obtain ⟨k, rest⟩ := kr
      rw [replacePass_cons_some d hm] at h
      cases hg : tableGet d (String.mk k) with
      | error e => rw [hg] at h; cases h
      | ok v =>
        rw [hg] at h
        dsimp only at h
        cases hp : replacePass cfg d rest with
        | error e => rw [hp] at h; cases h
        | ok rf =>
          obtain ⟨r2, f2⟩ := rf
          rw [hp] at h
          simp at h
    | none =>
      rw [replacePass_cons_none d hm] at h
      cases hp : replacePass cfg d cs with
      | error e => rw [hp] at h; cases h
      | ok rf =>
        obtain ⟨r2, f2⟩ := rf
        rw [hp] at h
        simp only [Except.ok.injEq, Prod.mk.injEq] at h
        obtain ⟨hr, hf⟩ := h
        subst hf
        rw [← hr, ih hp]

theorem pass_nullRef_error {cfg : EscapeCfg} :
    ∀ (s : List Char), scanMatch cfg s = true → replacePass cfg TableRef.nullRef s = Except.error JsError.typeError := by
  intro s
  induction s with
  | nil => intro h; cases h
  | cons c cs ih =>
    intro h
    cases hm : matchAt cfg (c :: cs) with
    | some kr =>
      obtain ⟨k, rest⟩ := kr
      rw [replacePass_cons_some TableRef.nullRef hm]
      rfl
    | none =>
      simp only [scanMatch, hm, Option.isSome_none, Bool.false_or] at h
      rw [replacePass_cons_none TableRef.nullRef hm, ih h]

theorem loop_last_pass {cfg : EscapeCfg} {d : TableRef} :
    ∀ (n : Nat) {s r : List Char}, resolveLoop cfg d n s = some (Except.ok r) →
      replacePass cfg d r = Except.ok (r, false) := by
  intro n
  induction n with
  | zero => intro s r h; cases h
  | succ m ih =>
    intro s r h
    replace h : (match replacePass cfg d s with
      | Except.error e => some (Except.error e)
      | Except.ok (r0, f) => if f then resolveLoop cfg d m r0 else some (Except.ok r0)) =
        some (Except.ok r) := h
    cases hp : replacePass cfg d s with
    | error e => rw [hp] at h; simp at h
    | ok rf =>
      obtain ⟨r0, f⟩ := rf
      rw [hp] at h
      dsimp only at h
      cases f with
      | true => rw [if_pos rfl] at h; exact ih h
      | false =>
        rw [if_neg (by simp)] at h
        simp only [Option.some.injEq, Except.ok.injEq] at h
        subst h
        have := pass_flag_false hp
        subst this
        exact hp

theorem loop_of_pass_flag {cfg : EscapeCfg} {d : TableRef} {s : List Char}
    (h : replacePass cfg d s = Except.ok (s, false)) (n : Nat) :
    resolveLoop cfg d (n + 1) s = some (Except.ok s) := by
  show (match replacePass cfg d s with
    | Except.error e => some (Except.error e)
    | Except.ok (r0, f) => if f then resolveLoop cfg d n r0 else some (Except.ok r0)) = _
  rw [h]
  rfl

theorem getElem?_mem_list {α : Type} : ∀ {l : List α} {i : Nat} {a : α}, l[i]? = some a → a ∈ l := by
  intro l
  induction l with
  | nil => intro i a h; simp at h
  | cons x xs ih =>
    intro i a h
    cases i with
    | zero =>
      rw [List.getElem?_cons_zero] at h
      simp only [Option.some.injEq] at h
      subst h
      exact List.mem_cons_self x xs
    | succ j =>
      rw [List.getElem?_cons_succ] at h
      exact List.mem_cons_of_mem x (ih h)

theorem mem_flattenObj {α : Type} :
    ∀ (l : List (String × Doc α)) (k : String) (v : α),
      ((k, v) ∈ flattenObj l ↔ ∃ k0 d0, (k0, d0) ∈ l ∧ (k, v) ∈ flattenOne k0 d0) := by
  intro l
  induction l with
  | nil => intro k v; simp [flattenObj]
  | cons e rest ih =>
    intro k v
    obtain ⟨k0, d0⟩ := e
    simp only [flattenObj, List.mem_append, List.mem_cons, ih]
    constructor
    · rintro (h | ⟨k1, d1, h1, h2⟩)
      · exact ⟨k0, d0, Or.inl rfl, h⟩
      · exact ⟨k1, d1, Or.inr h1, h2⟩
    · rintro ⟨k1, d1, h1 | h1, h2⟩
      · cases h1
        exact Or.inl h2
      · exact Or.inr ⟨k1, d1, h1, h2⟩

theorem mem_flattenArr {α : Type} :
    ∀ (l : List (Doc α)) (n : Nat) (k : String) (v : α),
      ((k, v) ∈ flattenArr n l ↔ ∃ i d0, l[i]? = some d0 ∧ (k, v) ∈ flattenOne (toString (n + i)) d0) := by
  intro l
  induction l with
  | nil => intro n k v; simp [flattenArr]
  | cons d rest ih =>
    intro n k v
    simp only [flattenArr, List.mem_append, ih]
    constructor
    · rintro (h | ⟨i, d0, h1, h2⟩)
      · exact ⟨0, d, by simp, by simpa using h⟩
      · refine ⟨i + 1, d0, by simpa using h1, ?_⟩
        rw [show n + (i + 1) = n + 1 + i by omega]
        exact h2
    · rintro ⟨i, d0, h1, h2⟩
      cases i with
      | zero =>
        rw [List.getElem?_cons_zero] at h1
        simp only [Option.some.injEq] at h1
        subst h1
        exact Or.inl (by simpa using h2)
      | succ j =>
        rw [List.getElem?_cons_succ] at h1
        refine Or.inr ⟨j, d0, h1, ?_⟩
        rw [show n + 1 + j = n + (j + 1) by omega]
        exact h2

theorem flattenOne_leaf {α : Type} (k : String) (v : α) :
    flattenOne k (Doc.leaf v) = if k = "__proto__" then [] else [(k, v)] := rfl

theorem flattenOne_not_leaf {α : Type} (k : String) (d : Doc α) (h : ∀ v, d ≠ Doc.leaf v) :
    flattenOne k d = (_flatten d).map (fun xv => (k ++ "." ++ xv.1, xv.2)) := by
  cases d with
  | leaf v => exact absurd rfl (h v)
  | obj l => rfl
  | arr l => rfl

theorem reaches_nil {α : Type} {d : Doc α} {v : α} (h : Reaches d [] v) : d = Doc.leaf v := by
  cases h
  rfl

theorem reaches_leaf {α : Type} {v0 v : α} {p : List String} (h : Reaches (Doc.leaf v0) p v) :
    p = [] ∧ v = v0 := by
  cases h
  exact ⟨rfl, rfl⟩

theorem joinDots_cons (x : String) {p : List String} (hp : p ≠ []) :
    joinDots (x :: p) = x ++ "." ++ joinDots p := by
  cases p with
  | nil => exact absurd rfl hp
  | cons y rest => rfl

theorem reaches_obj {α : Type} {l : List (String × Doc α)} {p : List String} {v : α}
    (h : Reaches (Doc.obj l) p v) :
    ∃ k0 d0 p2, p = k0 :: p2 ∧ (k0, d0) ∈ l ∧ Reaches d0 p2 v := by
  cases h with
  | obj hm hr => exact ⟨_, _, _, rfl, hm, hr⟩

theorem reaches_arr {α : Type} {l : List (Doc α)} {p : List String} {v : α}
    (h : Reaches (Doc.arr l) p v) :
    ∃ (i : Nat) (d0 : Doc α) (p2 : List String), p = toString i :: p2 ∧ l[i]? = some d0 ∧ Reaches d0 p2 v := by
  cases h with
  | arr hm hr => exact ⟨_, _, _, rfl, hm, hr⟩

theorem getLast?_cons_of_ne_nil {α : Type} {a : α} {l : List α} (h : l ≠ []) :
    (a :: l).getLast? = l.getLast? := by
  cases l with
  | nil => exact absurd rfl h
  | cons b m => exact List.getLast?_cons_cons

theorem mem_flatten_le {α : Type} :
    ∀ (n : Nat) (d : Doc α), sizeOf d ≤ n → ∀ (k : String) (v : α),
      ((k, v) ∈ _flatten d ↔
        ∃ p, p ≠ [] ∧ p.getLast? ≠ some "__proto__" ∧ k = joinDots p ∧ Reaches d p v) := by
  intro n
  induction n with
  | zero =>
    intro d hd
    exfalso
    cases d <;> simp_arith at hd
  | succ m ih =>
    intro d hd k v
    cases d with
    | leaf v0 =>
      show ((k, v) ∈ ([] : List (String × α)) ↔ _)
      simp only [List.not_mem_nil, false_iff]
      rintro ⟨p, hp, -, hk, hr⟩
      obtain ⟨hpe, -⟩ := reaches_leaf hr
      exact hp hpe
    | obj l =>
      show ((k, v) ∈ flattenObj l ↔ _)
      rw [mem_flattenObj]
      constructor
      · rintro ⟨k0, d0, hmem, hone⟩
        have hsz : sizeOf d0 ≤ m := by
          have h1 := List.sizeOf_lt_of_mem hmem
          have h2 : sizeOf (Doc.obj l) = 1 + sizeOf l := by simp
          have h3 : sizeOf (k0, d0) = 1 + sizeOf k0 + sizeOf d0 := by simp
          omega
        by_cases hleaf : ∃ v0, d0 = Doc.leaf v0
        · obtain ⟨v0, rfl⟩ := hleaf
          rw [flattenOne_leaf] at hone
          by_cases hk0 : k0 = "__proto__"
          · rw [if_pos hk0] at hone
            simp at hone
          · rw [if_neg hk0] at hone
            simp only [List.mem_singleton, Prod.mk.injEq] at hone
            obtain ⟨hk, hv⟩ := hone
            refine ⟨[k0], by simp, by simp [hk0], hk, ?_⟩
            rw [hv]
            exact Reaches.obj hmem (Reaches.leaf v0)
        · have hnl : ∀ v0, d0 ≠ Doc.leaf v0 := by
            intro v0 he
            exact hleaf ⟨v0, he⟩
          rw [flattenOne_not_leaf _ _ hnl] at hone
          simp only [List.mem_map] at hone
          obtain ⟨⟨x, tv⟩, hxm, hxe⟩ := hone
          simp only [Prod.mk.injEq] at hxe
          obtain ⟨hk, hv⟩ := hxe
          rw [ih d0 hsz x tv] at hxm
          obtain ⟨p, hp, hpl, hxp, hrp⟩ := hxm
          refine ⟨k0 :: p, by simp, ?_, ?_, Reaches.obj hmem (hv ▸ hrp)⟩
          · rw [getLast?_cons_of_ne_nil hp]
            exact hpl
          · rw [joinDots_cons k0 hp, ← hk, hxp]
      · rintro ⟨p, hp, hpl, hk, hr⟩
        obtain ⟨k0, d0, p2, rfl, hmem, hrd⟩ := reaches_obj hr
        · have hsz : sizeOf d0 ≤ m := by
            have h1 := List.sizeOf_lt_of_mem hmem
            have h2 : sizeOf (Doc.obj l) = 1 + sizeOf l := by simp
            have h3 : sizeOf (k0, d0) = 1 + sizeOf k0 + sizeOf d0 := by simp
            omega
          by_cases hpe : p2 = []
          · subst hpe
            have he := reaches_nil hrd
            subst he
            have hk0 : ¬ (k0 = "__proto__") := by
              simpa using hpl
            refine ⟨k0, Doc.leaf v, hmem, ?_⟩
            rw [flattenOne_leaf, if_neg hk0]
            simp only [List.mem_singleton, Prod.mk.injEq]
            exact ⟨hk, trivial⟩
          · have hnl : ∀ v0, d0 ≠ Doc.leaf v0 := by
              intro v0 he
              subst he
              obtain ⟨h1, -⟩ := reaches_leaf hrd
              exact hpe h1
            refine ⟨k0, d0, hmem, ?_⟩
            rw [flattenOne_not_leaf _ _ hnl]
            simp only [List.mem_map]
            refine ⟨(joinDots p2, v), ?_, ?_⟩
            · rw [ih d0 hsz]
              refine ⟨p2, hpe, ?_, rfl, hrd⟩
              rw [getLast?_cons_of_ne_nil hpe] at hpl
              exact hpl
            · simp only [Prod.mk.injEq]
              exact ⟨by rw [hk, joinDots_cons k0 hpe], trivial⟩
    | arr l =>
      show ((k, v) ∈ flattenArr 0 l ↔ _)
      rw [mem_flattenArr]
      constructor
      · rintro ⟨i, d0, hmem, hone⟩
        have hsz : sizeOf d0 ≤ m := by
          have h1 := List.sizeOf_lt_of_mem (getElem?_mem_list hmem)
          have h2 : sizeOf (Doc.arr l) = 1 + sizeOf l := by simp
          omega
        rw [show (0 : Nat) + i = i by omega] at hone
        by_cases hleaf : ∃ v0, d0 = Doc.leaf v0
        · obtain ⟨v0, rfl⟩ := hleaf
          rw [flattenOne_leaf] at hone
          by_cases hk0 : toString i = "__proto__"
          · rw [if_pos hk0] at hone
            simp at hone
          · rw [if_neg hk0] at hone
            simp only [List.mem_singleton, Prod.mk.injEq] at hone
            obtain ⟨hk, hv⟩ := hone
            refine ⟨[toString i], by simp, by simp [hk0], hk, ?_⟩
            rw [hv]
            exact Reaches.arr hmem (Reaches.leaf v0)
        · have hnl : ∀ v0, d0 ≠ Doc.leaf v0 := by
            intro v0 he
            exact hleaf ⟨v0, he⟩
          rw [flattenOne_not_leaf _ _ hnl] at hone
          simp only [List.mem_map] at hone
          obtain ⟨⟨x, tv⟩, hxm, hxe⟩ := hone
          simp only [Prod.mk.injEq] at hxe
          obtain ⟨hk, hv⟩ := hxe
          rw [ih d0 hsz x tv] at hxm
          obtain ⟨p, hp, hpl, hxp, hrp⟩ := hxm
          refine ⟨toString i :: p, by simp, ?_, ?_, Reaches.arr hmem (hv ▸ hrp)⟩
          · rw [getLast?_cons_of_ne_nil hp]
            exact hpl
          · rw [joinDots_cons (toString i) hp, ← hk, hxp]
      · rintro ⟨p, hp, hpl, hk, hr⟩
        obtain ⟨i, d0, p2, rfl, hmem, hrd⟩ := reaches_arr hr
        · have hsz : sizeOf d0 ≤ m := by
            have h1 := List.sizeOf_lt_of_mem (getElem?_mem_list hmem)
            have h2 : sizeOf (Doc.arr l) = 1 + sizeOf l := by simp
            omega
          by_cases hpe : p2 = []
          · subst hpe
            have he := reaches_nil hrd
            subst he
            have hk0 : ¬ (toString i = "__proto__") := by
              simpa using hpl
            refine ⟨i, Doc.leaf v, hmem, ?_⟩
            rw [show (0 : Nat) + i = i by omega, flattenOne_leaf, if_neg hk0]
            simp only [List.mem_singleton, Prod.mk.injEq]
            exact ⟨hk, trivial⟩
          · have hnl : ∀ v0, d0 ≠ Doc.leaf v0 := by
              intro v0 he
              subst he
              obtain ⟨h1, -⟩ := reaches_leaf hrd
              exact hpe h1
            refine ⟨i, d0, hmem, ?_⟩
            rw [show (0 : Nat) + i = i by omega, flattenOne_not_leaf _ _ hnl]
            simp only [List.mem_map]
            refine ⟨(joinDots p2, v), ?_, ?_⟩
            · rw [ih d0 hsz]
              refine ⟨p2, hpe, ?_, rfl, hrd⟩
              rw [getLast?_cons_of_ne_nil hpe] at hpl
              exact hpl
            · simp only [Prod.mk.injEq]
              exact ⟨by rw [hk, joinDots_cons (toString i) hpe], trivial⟩

theorem getElem?_lt_length {α : Type} : ∀ {l : List α} {i : Nat} {a : α}, l[i]? = some a → i < l.length := by
  intro l
  induction l with
  | nil => intro i a h; simp at h
  | cons x xs ih =>
    intro i a h
    cases i with
    | zero => simp
    | succ j =>
      rw [List.getElem?_cons_succ] at h
      have := ih h
      simp only [List.length_cons]
      omega

theorem idxOfAux_none {v : String} : ∀ {l : List String}, idxOfAux v l = none ↔ v ∉ l := by
  intro l
  induction l with
  | nil => simp [idxOfAux]
  | cons x xs ih =>
    simp only [idxOfAux, List.mem_cons]
    by_cases hx : x = v
    · subst hx
      simp
    · rw [if_neg hx]
      cases hq : idxOfAux v xs with
      | some n =>
        have hv : v ∈ xs := by
          by_contra hc
          rw [← ih] at hc
          rw [hq] at hc
          cases hc
        simp [hv, Option.map]
      | none =>
        have hv : v ∉ xs := ih.mp hq
        simp [hv, Option.map, Ne.symm hx]

theorem idxOfAux_some {v : String} :
    ∀ {l : List String} {i : Nat}, idxOfAux v l = some i → l[i]? = some v := by
  intro l
  induction l with
  | nil => intro i h; simp [idxOfAux] at h
  | cons x xs ih =>
    intro i h
    simp only [idxOfAux] at h
    by_cases hx : x = v
    · rw [if_pos hx] at h
      simp only [Option.some.injEq] at h
      subst h
      simp [hx]
    · rw [if_neg hx] at h
      cases hq : idxOfAux v xs with
      | none => rw [hq] at h; cases h
      | some n =>
        rw [hq] at h
        replace h : some (n + 1) = some i := h
        simp only [Option.some.injEq] at h
        subst h
        rw [List.getElem?_cons_succ]
        exact ih hq

theorem idxOfAux_get {l : List String} (hnd : l.Nodup) :
    ∀ {i : Nat} {w : String}, l[i]? = some w → idxOfAux w l = some i := by
  induction l with
  | nil => intro i w h; simp at h
  | cons x xs ih =>
    intro i w h
    rw [List.nodup_cons] at hnd
    obtain ⟨hx, hxs⟩ := hnd
    cases i with
    | zero =>
      rw [List.getElem?_cons_zero] at h
      simp only [Option.some.injEq] at h
      subst h
      simp [idxOfAux]
    | succ j =>
      rw [List.getElem?_cons_succ] at h
      have hw : w ∈ xs := getElem?_mem_list h
      have hxw : ¬ (x = w) := by
        intro he
        subst he
        exact hx hw
      simp only [idxOfAux, if_neg hxw, ih hxs h]
      rfl

theorem nextLanguage_at {ls : List String} (hnd : ls.Nodup) {i : Nat} {l : String}
    (hi : ls[i]? = some l) :
    _nextLanguage ls l = if i = 0 then ls[ls.length - 1]? else ls[i - 1]? := by
  have hidx : idxOfAux l ls = some i := idxOfAux_get hnd hi
  have hlen : i < ls.length := getElem?_lt_length hi
  unfold _nextLanguage jsIndexOf
  rw [hidx]
  dsimp only
  cases i with
  | zero =>
    rw [if_pos (by omega : ((0 : Nat) : Int) - 1 < 0), if_pos rfl]
    unfold jsGetElem
    rw [if_pos (by omega : (0 : Int) ≤ (ls.length : Int) - 1)]
    have he : ((ls.length : Int) - 1).toNat = ls.length - 1 := by omega
    rw [he]
  | succ j =>
    rw [if_neg (by omega : ¬ (((j + 1 : Nat) : Int) - 1 < 0)), if_neg (by omega : ¬ (j + 1 = 0))]
    unfold jsGetElem
    rw [if_pos (by omega : (0 : Int) ≤ ((j + 1 : Nat) : Int) - 1)]
    have he : (((j + 1 : Nat) : Int) - 1).toNat = j + 1 - 1 := by omega
    rw [he]

theorem prevLanguage_at {ls : List String} (hnd : ls.Nodup) {i : Nat} {l : String}
    (hi : ls[i]? = some l) :
    _prevLanguage ls l = if i + 1 = ls.length then ls[0]? else ls[i + 1]? := by
  have hidx : idxOfAux l ls = some i := idxOfAux_get hnd hi
  have hlen : i < ls.length := getElem?_lt_length hi
  unfold _prevLanguage jsIndexOf
  rw [hidx]
  dsimp only
  by_cases hc : i + 1 = ls.length
  · rw [if_pos (by omega : (ls.length : Int) ≤ ((i : Nat) : Int) + 1), if_pos hc]
    unfold jsGetElem
    rw [if_pos (by omega : (0 : Int) ≤ (0 : Int))]
    rfl
  · rw [if_neg (by omega : ¬ ((ls.length : Int) ≤ ((i : Nat) : Int) + 1)), if_neg hc]
    unfold jsGetElem
    rw [if_pos (by omega : (0 : Int) ≤ ((i : Nat) : Int) + 1)]
    have he : (((i : Nat) : Int) + 1).toNat = i + 1 := by omega
    rw [he]

theorem prevLanguage_absent {ls : List String} {v : String} (h : v ∉ ls) :
    _prevLanguage ls v = ls[0]? := by
  have hidx : idxOfAux v ls = none := idxOfAux_none.mpr h
  unfold _prevLanguage jsIndexOf
  rw [hidx]
  dsimp only
  by_cases hc : (ls.length : Int) ≤ (-1 : Int) + 1
  · rw [if_pos hc]
    unfold jsGetElem
    rw [if_pos (by omega : (0 : Int) ≤ (0 : Int))]
    rfl
  · rw [if_neg hc]
    unfold jsGetElem
    rw [if_pos (by omega : (0 : Int) ≤ (-1 : Int) + 1)]
    rfl

theorem nextLanguage_absent {ls : List String} {v : String} (h : v ∉ ls) (hne : ls ≠ []) :
    _nextLanguage ls v = ls[ls.length - 1]? := by
  have hidx : idxOfAux v ls = none := idxOfAux_none.mpr h
  have hlen : 0 < ls.length := List.length_pos.mpr hne
  unfold _nextLanguage jsIndexOf
  rw [hidx]
  dsimp only
  rw [if_pos (by omega : (-1 : Int) - 1 < 0)]
  unfold jsGetElem
  rw [if_pos (by omega : (0 : Int) ≤ (ls.length : Int) - 1)]
  have he : ((ls.length : Int) - 1).toNat = ls.length - 1 := by omega
  rw [he]

theorem resolveLoop_succ (cfg : EscapeCfg) (d : TableRef) (n : Nat) (s : List Char) :
    resolveLoop cfg d (n + 1) s =
      match replacePass cfg d s with
      | Except.error e => some (Except.error e)
      | Except.ok (r, f) => if f then resolveLoop cfg d n r else some (Except.ok r) := rfl

theorem loop_of_pass_error {cfg : EscapeCfg} {d : TableRef} {s : List Char}
    (h : replacePass cfg d s = Except.error JsError.typeError) (n : Nat) :
    resolveLoop cfg d (n + 1) s = some (Except.error JsError.typeError) := by
  rw [resolveLoop_succ, h]

/-- C9: resolving the absence-of-value sentinels (null and undefined)
returns the input unchanged, independently of the configured pattern,
the active table reference and the loop fuel. -/
theorem resolve_absent_identity (cfg : EscapeCfg) (d : TableRef) (n : Nat) :
    _replace cfg d n JsText.nullv = some (Except.ok JsText.nullv) ∧
    _replace cfg d n JsText.undef = some (Except.ok JsText.undef) :=
  ⟨rfl, rfl⟩

/-- C3: setting the active language stores the value when it is one of
the configured identifiers and otherwise silently falls back to the
default (first configured) identifier; the operation is total. -/
theorem setLanguage_fallback (st : I18NState) (v : String) :
    (v ∈ st.languages → (setLanguage st v).lang = some v) ∧
    (v ∉ st.languages → (setLanguage st v).lang = st.languages.head?) := by
  constructor
  · intro h
    simp [setLanguage, h]
  · intro h
    simp [setLanguage, h]

theorem setLanguage_fallback_witness :
    (setLanguage ⟨["en", "de"], some "en"⟩ "fr").lang = (["en", "de"] : List String).head? :=
  (setLanguage_fallback ⟨["en", "de"], some "en"⟩ "fr").2 (by decide)

/-- C7: on a text in which the compiled pattern finds no match, one
replacement pass is the identity with a clear flag, and the resolver
returns the text unchanged. -/
theorem resolve_token_free_identity (cfg : EscapeCfg) (d : TableRef) (s : List Char)
    (h : scanMatch cfg s = false) :
    replacePass cfg d s = Except.ok (s, false) ∧
    ∀ n : Nat, resolveLoop cfg d (n + 1) s = some (Except.ok s) :=
  ⟨pass_of_no_match d s h, fun n => loop_of_pass_flag (pass_of_no_match d s h) n⟩

theorem resolve_token_free_identity_witness :
    resolveLoop cfg0 (TableRef.table []) 1 ("hello".toList) = some (Except.ok ("hello".toList)) :=
  (resolve_token_free_identity cfg0 (TableRef.table []) ("hello".toList) (by decide)).2 0

/-- C8 (amended): whenever the substitution loop terminates (a pass
with zero matches is reached within some number of iterations),
resolving the result again is the identity, so resolve after resolve
equals resolve on every input on which resolve terminates. -/
theorem resolve_idempotent (cfg : EscapeCfg) (d : TableRef) (n : Nat) (s r : List Char)
    (h : resolveLoop cfg d n s = some (Except.ok r)) (m : Nat) :
    resolveLoop cfg d (m + 1) r = some (Except.ok r) :=
  loop_of_pass_flag (loop_last_pass n h) m

theorem resolve_idempotent_witness :
    resolveLoop cfg0 (TableRef.table [("hero", "Harold")]) 1 ("Harold".toList) =
      some (Except.ok ("Harold".toList)) :=
  resolve_idempotent cfg0 (TableRef.table [("hero", "Harold")]) 2 ("#{hero}".toList)
    ("Harold".toList) (by rfl) 0

/-- C5: the end-to-end example of the spec: flattening the example
document yields the expected three-key table, resolving "#(greet)"
substitutes transitively to the greeting with Harold filled in, and
resolving "#(text.test)" yields "This is a test" (braces written as
parentheses here). -/
theorem end_to_end_example :
    _flatten exDoc =
      [("text.test", "This is a test"), ("hero", "Harold"), ("greet", "Hi, I\x27m #{hero}")] ∧
    resolveLoop cfg0 (TableRef.table (_flatten exDoc)) 3 ("#{greet}".toList) =
      some (Except.ok ("Hi, I\x27m Harold".toList)) ∧
    resolveLoop cfg0 (TableRef.table (_flatten exDoc)) 3 ("#{text.test}".toList) =
      some (Except.ok ("This is a test".toList)) :=
  ⟨by decide, by rfl, by rfl⟩

/-- C4 (amended): for every document, the flat table contains an entry
exactly for every leaf reachable by a path whose final segment is not
the inherited prototype property name "__proto__" (such a leaf is
silently dropped, because the table assignment hits the inherited
prototype setter and is a no-op), keyed by the dotted join of the
segments of the path (object keys and decimal array indices), and no
other entries; in particular the two-element array example flattens to
the keys "list.0" and "list.1". -/
theorem flatten_exactly_leaf_paths :
    (∀ (d : Doc String) (k v : String),
      ((k, v) ∈ _flatten d ↔
        ∃ p, p ≠ [] ∧ p.getLast? ≠ some "__proto__" ∧ k = joinDots p ∧ Reaches d p v)) ∧
    _flatten (Doc.obj [("list", Doc.arr [Doc.leaf "A", Doc.leaf "B"])]) =
      [("list.0", "A"), ("list.1", "B")] :=
  ⟨fun d k v => mem_flatten_le _ d le_rfl k v, by decide⟩

/-- C4 counterexample: a document with the object key "__proto__" and a
scalar leaf has that leaf reachable at the path with that single
segment, yet the flattened table is empty: the assignment into the
table is swallowed by the inherited prototype setter, so the table
does not contain the entry the original claim requires. -/
theorem flatten_claim_counterexample :
    _flatten (Doc.obj [("__proto__", Doc.leaf "x")]) = ([] : List (String × String)) ∧
    Reaches (Doc.obj [("__proto__", Doc.leaf "x")]) ["__proto__"] "x" ∧
    ("__proto__", "x") ∉ _flatten (Doc.obj [("__proto__", Doc.leaf "x")]) :=
  ⟨by decide, Reaches.obj (by simp) (Reaches.leaf "x"), by decide⟩

/-- C2 (amended): resolving a single token whose captured key is absent
from the loaded active table and is not one of the member names
inherited from the base object prototype substitutes the fixed text
"undefined" in place of the token and raises no error; when the
substituted text itself contains no token, the whole resolution
returns "undefined". (An absent key that names an inherited prototype
member instead substitutes that member stringified.) -/
theorem missing_key_resolves_to_undefined (pre sufTail : List Char) (s0 : Char) (t : Table)
    (k : List Char) (hs0 : isWordDot s0 = false) (hk : k ≠ [])
    (hkw : ∀ c ∈ k, isWordDot c = true)
    (habs : lookupTable t (String.mk k) = none)
    (hproto : String.mk k ∉ objectProtoKeys) :
    replacePass ⟨pre, s0 :: sufTail⟩ (TableRef.table t) (pre ++ k ++ (s0 :: sufTail)) =
      Except.ok ("undefined".toList, true) ∧
    (scanMatch ⟨pre, s0 :: sufTail⟩ ("undefined".toList) = false →
      ∀ n : Nat,
        resolveLoop ⟨pre, s0 :: sufTail⟩ (TableRef.table t) (n + 2) (pre ++ k ++ (s0 :: sufTail)) =
          some (Except.ok ("undefined".toList))) := by
  have hm : matchAt ⟨pre, s0 :: sufTail⟩ (pre ++ k ++ (s0 :: sufTail)) = some (k, []) := by
    have h := matchAt_token ⟨pre, s0 :: sufTail⟩ rfl hs0 hk hkw []
    simpa using h
  have hget : tableGet (TableRef.table t) (String.mk k) = Except.ok "undefined" := by
    simp [tableGet, habs, hproto]
  have hpass : replacePass ⟨pre, s0 :: sufTail⟩ (TableRef.table t) (pre ++ k ++ (s0 :: sufTail)) =
      Except.ok ("undefined".toList, true) := by
    rw [replacePass_match _ hm, hget]
    dsimp only
    rw [replacePass_nil]
    dsimp only
    rw [List.append_nil]
  refine ⟨hpass, fun hund n => ?_⟩
  rw [resolveLoop_succ, hpass]
  dsimp only
  rw [if_pos rfl]
  exact loop_of_pass_flag (pass_of_no_match _ _ hund) n

theorem missing_key_resolves_to_undefined_witness :
    replacePass ⟨"#\x7b".toList, '}' :: []⟩ (TableRef.table [("hero", "Harold")])
        ("#\x7b".toList ++ "doesnotexist".toList ++ ('}' :: [])) =
      Except.ok ("undefined".toList, true) :=
  (missing_key_resolves_to_undefined "#\x7b".toList [] '}' [("hero", "Harold")]
    ("doesnotexist".toList) (by decide) (by decide) (by decide) (by decide) (by decide)).1

/-- C2 counterexample: the table built by the flatten routine inherits
the members of the base object prototype, so the capturable key
"constructor", although absent from the table, resolves to the
stringified inherited constructor function rather than to the fixed
"undefined" representation. -/
theorem missing_key_counterexample :
    lookupTable [("hero", "Harold")] "constructor" = none ∧
    resolveLoop cfg0 (TableRef.table [("hero", "Harold")]) 2 ("#{constructor}".toList) =
      some (Except.ok (("function Object() \x7b [native code] \x7d" : String).toList)) ∧
    ("function Object() \x7b [native code] \x7d" : String) ≠ "undefined" :=
  ⟨rfl, rfl, by decide⟩

/-- C6: two adjacent tokens are matched separately, never as one merged
match: one pass over the concatenation of two tokens with table keys a
and b yields the value of a followed by the value of b, and when those
values are token free the whole resolution returns that concatenation. -/
theorem adjacent_tokens_separate (pre sufTail : List Char) (s0 : Char) (t : Table)
    (a b : List Char) (va vb : String)
    (hs0 : isWordDot s0 = false)
    (ha : a ≠ []) (haw : ∀ c ∈ a, isWordDot c = true)
    (hb : b ≠ []) (hbw : ∀ c ∈ b, isWordDot c = true)
    (hva : lookupTable t (String.mk a) = some va)
    (hvb : lookupTable t (String.mk b) = some vb) :
    replacePass ⟨pre, s0 :: sufTail⟩ (TableRef.table t)
        (pre ++ a ++ (s0 :: sufTail) ++ pre ++ b ++ (s0 :: sufTail)) =
      Except.ok (va.toList ++ vb.toList, true) ∧
    (scanMatch ⟨pre, s0 :: sufTail⟩ (va.toList ++ vb.toList) = false →
      ∀ n : Nat,
        resolveLoop ⟨pre, s0 :: sufTail⟩ (TableRef.table t) (n + 2)
            (pre ++ a ++ (s0 :: sufTail) ++ pre ++ b ++ (s0 :: sufTail)) =
          some (Except.ok (va.toList ++ vb.toList))) := by
  have hm1 : matchAt ⟨pre, s0 :: sufTail⟩ (pre ++ a ++ (s0 :: sufTail) ++ pre ++ b ++ (s0 :: sufTail)) =
      some (a, pre ++ b ++ (s0 :: sufTail)) := by
    have h := matchAt_token ⟨pre, s0 :: sufTail⟩ rfl hs0 ha haw (pre ++ b ++ (s0 :: sufTail))
    simpa [List.append_assoc] using h
  have hm2 : matchAt ⟨pre, s0 :: sufTail⟩ (pre ++ b ++ (s0 :: sufTail)) = some (b, []) := by
    have h := matchAt_token ⟨pre, s0 :: sufTail⟩ rfl hs0 hb hbw []
    simpa using h
  have hgeta : tableGet (TableRef.table t) (String.mk a) = Except.ok va := by
    simp [tableGet, hva]
  have hgetb : tableGet (TableRef.table t) (String.mk b) = Except.ok vb := by
    simp [tableGet, hvb]
  have hpass : replacePass ⟨pre, s0 :: sufTail⟩ (TableRef.table t)
      (pre ++ a ++ (s0 :: sufTail) ++ pre ++ b ++ (s0 :: sufTail)) =
      Except.ok (va.toList ++ vb.toList, true) := by
    rw [replacePass_match _ hm1, hgeta]
    dsimp only
    rw [replacePass_match _ hm2, hgetb]
    dsimp only
    rw [replacePass_nil]
    dsimp only
    rw [List.append_nil]
  refine ⟨hpass, fun hund n => ?_⟩
  rw [resolveLoop_succ, hpass]
  dsimp only
  rw [if_pos rfl]
  exact loop_of_pass_flag (pass_of_no_match _ _ hund) n

theorem adjacent_tokens_separate_witness :
    replacePass ⟨"#\x7b".toList, '}' :: []⟩ (TableRef.table [("a", "1"), ("b", "2")])
        ("#\x7b".toList ++ "a".toList ++ ('}' :: []) ++ "#\x7b".toList ++ "b".toList ++ ('}' :: [])) =
      Except.ok (("1" : String).toList ++ ("2" : String).toList, true) :=
  (adjacent_tokens_separate "#\x7b".toList [] '}' [("a", "1"), ("b", "2")]
    ("a".toList) ("b".toList) "1" "2" (by decide) (by decide) (by decide) (by decide) (by decide)
    (by decide) (by decide)).1

/-- C1 (amended): while the active language is a configured identifier
whose document has not been loaded yet, its table reference is still
the null placeholder: resolving token-free text returns it unchanged,
but resolving any text in which the pattern finds a match throws a
TypeError from the lookup on null (only the unrecognized-language
sentinel is mapped to an empty table). -/
theorem unloaded_language_behavior (cfg : EscapeCfg) (s : List Char) (n : Nat) :
    (scanMatch cfg s = true →
      resolveLoop cfg TableRef.nullRef (n + 1) s = some (Except.error JsError.typeError)) ∧
    (scanMatch cfg s = false →
      resolveLoop cfg TableRef.nullRef (n + 1) s = some (Except.ok s)) :=
  ⟨fun h => loop_of_pass_error (pass_nullRef_error s h) n,
   fun h => loop_of_pass_flag (pass_of_no_match _ s h) n⟩

theorem unloaded_language_behavior_witness :
    resolveLoop cfg0 TableRef.nullRef 1 ("#{x}".toList) = some (Except.error JsError.typeError) :=
  (unloaded_language_behavior cfg0 ("#{x}".toList) 0).1 (by decide)

/-- C1 counterexample: in the freshly built data map a configured
language holds the null placeholder, and resolving text containing a
token against that placeholder raises a TypeError instead of behaving
like the empty table, which would have substituted "undefined". -/
theorem unloaded_language_counterexample :
    (dataInit ["en"]).lookup "en" = some TableRef.nullRef ∧
    resolveLoop cfg0 TableRef.nullRef 1 ("#{x}".toList) = some (Except.error JsError.typeError) ∧
    resolveLoop cfg0 (TableRef.table []) 2 ("#{x}".toList) = some (Except.ok ("undefined".toList)) :=
  ⟨rfl, rfl, rfl⟩

theorem pass_replicate_z (k : Nat) (t0 : List Char) :
    replacePass cfg0 (TableRef.table regenTable) (List.replicate k 'z' ++ t0) =
      match replacePass cfg0 (TableRef.table regenTable) t0 with
      | Except.error e => Except.error e
      | Except.ok (r, f) => Except.ok (List.replicate k 'z' ++ r, f) := by
  induction k with
  | zero =>
    rw [show List.replicate 0 'z' ++ t0 = t0 by simp]
    cases h : replacePass cfg0 (TableRef.table regenTable) t0 with
    | error e => rfl
    | ok rf =>
      obtain ⟨r, f⟩ := rf
      dsimp only
      rw [show List.replicate 0 'z' ++ r = r by simp]
  | succ j ih =>
    rw [List.replicate_succ, List.cons_append]
    have hm : matchAt cfg0 ('z' :: (List.replicate j 'z' ++ t0)) = none :=
      matchAt_head_ne rfl (by decide)
    rw [replacePass_cons_none _ hm, ih]
    cases h : replacePass cfg0 (TableRef.table regenTable) t0 with
    | error e => rfl
    | ok rf =>
      obtain ⟨r, f⟩ := rf
      dsimp only
      rw [List.cons_append]

theorem regen_diverges :
    ∀ n k : Nat,
      resolveLoop cfg0 (TableRef.table regenTable) n (List.replicate k 'z' ++ "#{c}".toList) = none ∧
      resolveLoop cfg0 (TableRef.table regenTable) n (List.replicate k 'z' ++ "#{b}{c}".toList) = none := by
  intro n
  induction n with
  | zero => intro k; exact ⟨rfl, rfl⟩
  | succ m ih =>
    intro k
    constructor
    · rw [resolveLoop_succ, pass_replicate_z]
      rw [show replacePass cfg0 (TableRef.table regenTable) ("#{c}".toList) =
            Except.ok ("#{b}{c}".toList, true) from rfl]
      dsimp only
      rw [if_pos rfl]
      exact (ih k).2
    · rw [resolveLoop_succ, pass_replicate_z]
      rw [show replacePass cfg0 (TableRef.table regenTable) ("#{b}{c}".toList) =
            Except.ok ('z' :: "#{c}".toList, true) from rfl]
      dsimp only
      rw [if_pos rfl]
      rw [show List.replicate k 'z' ++ ('z' :: "#{c}".toList) =
            List.replicate (k + 1) 'z' ++ "#{c}".toList by
        rw [List.replicate_succ']
        simp]
      exact (ih (k + 1)).1

/-- C8 counterexample: the key-reference graph of `regenTable` is
acyclic (its only reference is from "c" to "b"), yet resolving "#(c)"
never terminates: no amount of loop fuel produces a result, because
each pass rebuilds the token for "c" from the "#" contributed by the
value of "b" (braces written as parentheses here). -/
theorem fixpoint_counterexample :
    AcyclicRefs cfg0 regenTable ∧
    ¬ ∃ (n : Nat) (r : List Char),
        resolveLoop cfg0 (TableRef.table regenTable) n ("#{c}".toList) = some (Except.ok r) := by
  constructor
  · refine ⟨fun k => if k = "c" then 1 else 0, ?_⟩
    rintro k k2 ⟨v, hm, ht⟩
    simp only [regenTable, List.mem_cons, List.not_mem_nil, or_false, Prod.mk.injEq] at hm
    rcases hm with ⟨hk, hv⟩ | ⟨hk, hv⟩
    · subst hk
      subst hv
      rw [show tokenKeys cfg0 (("z#" : String).toList) = [] from rfl] at ht
      simp at ht
    · subst hk
      subst hv
      rw [show tokenKeys cfg0 (("#{b}{c}" : String).toList) = ["b".toList] from rfl] at ht
      simp only [List.map_cons, List.map_nil, List.mem_singleton] at ht
      subst ht
      decide
  · rintro ⟨n, r, h⟩
    have hd := (regen_diverges n 0).1
    rw [show List.replicate 0 'z' ++ "#{c}".toList = "#{c}".toList by simp] at hd
    rw [hd] at h
    cases h

/-- C10 (amended): for every nonempty configured language list with
pairwise-distinct entries, the two cycling helpers of the menu plugin
are mutual inverses on registered languages, and each helper returns an
element of the configured list even when given an unregistered value;
for the empty list both helpers return undefined instead. -/
theorem cycle_helpers_inverse (ls : List String) (hnd : ls.Nodup) (hne : ls ≠ []) :
    (∀ l ∈ ls, (_nextLanguage ls l).bind (_prevLanguage ls) = some l ∧
               (_prevLanguage ls l).bind (_nextLanguage ls) = some l) ∧
    (∀ v : String, ∃ w, _prevLanguage ls v = some w ∧ w ∈ ls) ∧
    (∀ v : String, ∃ w, _nextLanguage ls v = some w ∧ w ∈ ls) := by
  have hlen : 0 < ls.length := List.length_pos.mpr hne
  refine ⟨?_, ?_, ?_⟩
  · intro l hl
    obtain ⟨i, hidx⟩ : ∃ i, idxOfAux l ls = some i := by
      cases hq : idxOfAux l ls with
      | none => exact absurd hl (idxOfAux_none.mp hq)
      | some i => exact ⟨i, rfl⟩
    have hi : ls[i]? = some l := idxOfAux_some hidx
    have hilen : i < ls.length := getElem?_lt_length hi
    constructor
    · rw [nextLanguage_at hnd hi]
      by_cases hz : i = 0
      · rw [if_pos hz]
        have hlast := List.getElem?_eq_getElem (show ls.length - 1 < ls.length by omega)
        rw [hlast, Option.some_bind]
        rw [prevLanguage_at hnd hlast, if_pos (by omega)]
        rw [← hz]
        exact hi
      · rw [if_neg hz]
        have hsome := List.getElem?_eq_getElem (show i - 1 < ls.length by omega)
        rw [hsome, Option.some_bind]
        rw [prevLanguage_at hnd hsome, if_neg (by omega : ¬ (i - 1 + 1 = ls.length))]
        rw [show i - 1 + 1 = i by omega]
        exact hi
    · rw [prevLanguage_at hnd hi]
      by_cases hc : i + 1 = ls.length
      · rw [if_pos hc]
        have h0 := List.getElem?_eq_getElem (show 0 < ls.length by omega)
        rw [h0, Option.some_bind]
        rw [nextLanguage_at hnd h0, if_pos rfl]
        rw [show ls.length - 1 = i by omega]
        exact hi
      · rw [if_neg hc]
        have hs := List.getElem?_eq_getElem (show i + 1 < ls.length by omega)
        rw [hs, Option.some_bind]
        rw [nextLanguage_at hnd hs, if_neg (by omega : ¬ (i + 1 = 0))]
        rw [show i + 1 - 1 = i by omega]
        exact hi
  · intro v
    by_cases hv : v ∈ ls
    · obtain ⟨i, hidx⟩ : ∃ i, idxOfAux v ls = some i := by
        cases hq : idxOfAux v ls with
        | none => exact absurd hv (idxOfAux_none.mp hq)
        | some i => exact ⟨i, rfl⟩
      have hi : ls[i]? = some v := idxOfAux_some hidx
      have hilen : i < ls.length := getElem?_lt_length hi
      rw [prevLanguage_at hnd hi]
      by_cases hc : i + 1 = ls.length
      · rw [if_pos hc]
        have h0 := List.getElem?_eq_getElem (show 0 < ls.length by omega)
        exact ⟨_, h0, getElem?_mem_list h0⟩
      · rw [if_neg hc]
        have hs := List.getElem?_eq_getElem (show i + 1 < ls.length by omega)
        exact ⟨_, hs, getElem?_mem_list hs⟩
    · rw [prevLanguage_absent hv]
      have h0 := List.getElem?_eq_getElem (show 0 < ls.length by omega)
      exact ⟨_, h0, getElem?_mem_list h0⟩
  · intro v
    by_cases hv : v ∈ ls
    · obtain ⟨i, hidx⟩ : ∃ i, idxOfAux v ls = some i := by
        cases hq : idxOfAux v ls with
        | none => exact absurd hv (idxOfAux_none.mp hq)
        | some i => exact ⟨i, rfl⟩
      have hi : ls[i]? = some v := idxOfAux_some hidx
      have hilen : i < ls.length := getElem?_lt_length hi
      rw [nextLanguage_at hnd hi]
      by_cases hz : i = 0
      · rw [if_pos hz]
        have hlast := List.getElem?_eq_getElem (show ls.length - 1 < ls.length by omega)
        exact ⟨_, hlast, getElem?_mem_list hlast⟩
      · rw [if_neg hz]
        have hs := List.getElem?_eq_getElem (show i - 1 < ls.length by omega)
        exact ⟨_, hs, getElem?_mem_list hs⟩
    · rw [nextLanguage_absent hv hne]
      have hlast := List.getElem?_eq_getElem (show ls.length - 1 < ls.length by omega)
      exact ⟨_, hlast, getElem?_mem_list hlast⟩

theorem cycle_helpers_inverse_witness :
    (_nextLanguage ["en", "de"] "en").bind (_prevLanguage ["en", "de"]) = some "en" :=
  ((cycle_helpers_inverse ["en", "de"] (by decide) (by decide)).1 "en" (by decide)).1

/-- C10 counterexample: the empty configured list has pairwise-distinct
entries, yet the previous-language helper applied to it returns
undefined, which is not an element of the list. -/
theorem cycle_helpers_counterexample :
    ([] : List String).Nodup ∧
    ¬ ∃ w, _prevLanguage [] "en" = some w ∧ w ∈ ([] : List String) := by
  refine ⟨List.nodup_nil, ?_⟩
  rintro ⟨w, -, hw⟩
  cases hw
